import Mathlib

/-!
Verification of the GPU presentation subsystem of the slsh engine
(`src/slsh_engine/renderer.rs`), as a shallow embedding in Lean.

Machine integers are modelled as `Nat` (all arithmetic here stays far below
`2^32`, except where `u32::MAX` appears explicitly as a sentinel constant).
Fallible / panicking code is modelled with `Option` (`none` = panic).
Opaque Vulkan handles are modelled as `Nat` tokens.  The `f32` matrices of
glam are never computed with by the renderer — only stored and copied — so
they are modelled by an arbitrary type parameter `M`.

The file has two parts: first every definition (the embedding of the code
plus concrete sample inputs used by witnesses), then every theorem.
-/

namespace Slsh

/-! ## Part 1: definitions -/

/-! ### Generic stable sorting (model of Rust's stable `sort_by_key`)

`slice::sort_by_key` in Rust is a stable sort.  All stable sorts by the same
key produce the same output list, so we model it by a stable insertion sort.
-/

/-- Insert `a` into `l` before the first element whose key is `≥ key a`
(so an element inserted from the left keeps its place before later ties). -/
def ordInsert {α : Type} (key : α → Nat) (a : α) : List α → List α
  | [] => [a]
  | b :: bs => if key a ≤ key b then a :: b :: bs else b :: ordInsert key a bs

/-- Stable sort by a `Nat` key: model of Rust's `sort_by_key`. -/
def sortByKey {α : Type} (key : α → Nat) : List α → List α
  | [] => []
  | a :: as => ordInsert key a (sortByKey key as)

/-- Modelled from the spec: "rank ... (lower is better); pick the first after
a stable sort", "first-enumerated wins ties" — the first element of the list
attaining the minimal key (ties resolved toward the earlier element). -/
def firstMinBy {α : Type} (key : α → Nat) : List α → Option α
  | [] => none
  | a :: as =>
    match firstMinBy key as with
    | none => some a
    | some m => if key a ≤ key m then some a else some m

/-! ### Device selection (renderer.rs lines 668-745)

`pick_phys_device` enumerates physical devices, keeps those that offer a
graphics queue family, a present-capable queue family and the required device
extensions, asserts the surviving list is non-empty (panic otherwise), sorts
it stably by device-type priority and returns the first entry.
-/

/-- Vulkan physical device types relevant to `device_type_to_priority`;
`otherType` stands for every value outside the four named ones. -/
inductive DeviceType
  | discreteGpu
  | integratedGpu
  | virtualGpu
  | cpu
  | otherType
deriving DecidableEq

/-- Priority table of `device_type_to_priority` (renderer.rs lines 737-745). -/
def device_type_to_priority : DeviceType → Nat
  | .discreteGpu => 1
  | .integratedGpu => 2
  | .virtualGpu => 3
  | .cpu => 4
  | .otherType => 5

/-- One queue family of a device: which capabilities its `queue_flags` carry,
plus per-family surface present support (renderer.rs lines 797-836). -/
structure QueueFamily where
  graphics : Bool
  compute : Bool
  transfer : Bool
  present : Bool
deriving DecidableEq

/-- Mirror of the Rust `QueueFamilyIndices` struct (renderer.rs lines 74-80). -/
structure QueueFamilyIndices where
  graphics : Option Nat
  compute : Option Nat
  transfer : Option Nat
  present : Option Nat
deriving DecidableEq

/-- One loop iteration of `get_queue_family_indices`: each matching capability
overwrites the stored index with the current family index `i`. -/
def gqfiStep (i : Nat) (acc : QueueFamilyIndices) (f : QueueFamily) : QueueFamilyIndices :=
  { graphics := if f.graphics then some i else acc.graphics
    compute := if f.compute then some i else acc.compute
    transfer := if f.transfer then some i else acc.transfer
    present := if f.present then some i else acc.present }

def gqfiLoop (i : Nat) (acc : QueueFamilyIndices) : List QueueFamily → QueueFamilyIndices
  | [] => acc
  | f :: fs => gqfiLoop (i + 1) (gqfiStep i acc f) fs

/-- Embedding of `get_queue_family_indices` (renderer.rs lines 797-836). -/
def get_queue_family_indices (families : List QueueFamily) : QueueFamilyIndices :=
  gqfiLoop 0 ⟨none, none, none, none⟩ families

/-- A physical device as seen by selection: its advertised type, its queue
family table and its supported extension names. -/
structure PhysDevice where
  deviceType : DeviceType
  queueFamilies : List QueueFamily
  extensions : List String
deriving DecidableEq

/-- The statically required device extensions (renderer.rs lines 22-26,
non-Apple target). -/
def REQ_DEVICE_EXTENSIONS : List String := ["VK_KHR_swapchain"]

/-- Embedding of `supports_required_extensions` (renderer.rs lines 717-735):
the double loop marks each required name found in the device's extension list
and requires all marks to be set, i.e. every required name occurs. -/
def supports_required_extensions (exts : List String) : Bool :=
  REQ_DEVICE_EXTENSIONS.all (fun req => exts.any (fun e => e = req))

/-- Mirror of the Rust `PhysDeviceInfo` struct (renderer.rs lines 82-87);
the `phys_device` handle and `properties` are folded into `device`. -/
structure PhysDeviceInfo where
  device : PhysDevice
  queueFamilyIndices : QueueFamilyIndices
deriving DecidableEq

/-- Embedding of `gather_phys_device_infos` (renderer.rs lines 684-715):
keep exactly the devices whose queue-family scan yields both a graphics and a
present family and which support all required extensions. -/
def gather_phys_device_infos : List PhysDevice → List PhysDeviceInfo
  | [] => []
  | d :: ds =>
    let qfi := get_queue_family_indices d.queueFamilies
    if qfi.graphics.isSome && qfi.present.isSome &&
        supports_required_extensions d.extensions then
      ⟨d, qfi⟩ :: gather_phys_device_infos ds
    else
      gather_phys_device_infos ds

/-- Priority of a surviving candidate, as used by the `sort_by_key` call. -/
def infoPriority (info : PhysDeviceInfo) : Nat :=
  device_type_to_priority info.device.deviceType

/-- Embedding of `pick_phys_device` (renderer.rs lines 668-682): filter, then
stable-sort by device-type priority and take the first element.  `none` models
the `assert!`/index panic on an empty candidate list. -/
def pick_phys_device (devices : List PhysDevice) : Option PhysDeviceInfo :=
  (sortByKey infoPriority (gather_phys_device_infos devices)).head?

/-- Sample queue family offering everything (used by concrete witnesses). -/
def sampleFamily : QueueFamily := ⟨true, true, true, true⟩

/-- Sample device of a given type that passes the selection filter. -/
def sampleDevice (t : DeviceType) : PhysDevice :=
  ⟨t, [sampleFamily], ["VK_KHR_swapchain"]⟩

/-- The queue-family index record produced for `sampleDevice`. -/
def sampleQfi : QueueFamilyIndices := ⟨some 0, some 0, some 0, some 0⟩

/-- Default element handed to `List.getD` in positional statements. -/
def defaultInfo : PhysDeviceInfo :=
  ⟨⟨.otherType, [], []⟩, ⟨none, none, none, none⟩⟩

/-- A second discrete-GPU device, distinguishable from `sampleDevice`. -/
def sampleDiscreteB : PhysDevice :=
  ⟨.discreteGpu, [sampleFamily], ["VK_KHR_swapchain", "VK_KHR_maintenance1"]⟩

/-- Two equal-priority candidates, used to exercise tie-breaking. -/
def sampleTieList : List PhysDeviceInfo :=
  [⟨sampleDevice .discreteGpu, sampleQfi⟩, ⟨sampleDiscreteB, sampleQfi⟩]

/-! ### Present-mode selection (renderer.rs lines 942-963) -/

/-- Vulkan present modes; `sharedDemandRefresh` and `sharedContinuousRefresh`
stand in for every mode outside the four core ones. -/
inductive PresentMode
  | immediate
  | mailbox
  | fifo
  | fifoRelaxed
  | sharedDemandRefresh
  | sharedContinuousRefresh
deriving DecidableEq

/-- Priority table of `present_mode_to_priority` (renderer.rs lines 956-963). -/
def present_mode_to_priority : PresentMode → Nat
  | .immediate => 1
  | .fifoRelaxed => 2
  | .mailbox => 3
  | _ => 4

/-- Embedding of `choose_swapchain_present_mode` (renderer.rs lines 942-954):
stable-sort the supported modes by priority and take the first; `none` models
the `modes[0]` panic on an empty list. -/
def choose_swapchain_present_mode (modes : List PresentMode) : Option PresentMode :=
  (sortByKey present_mode_to_priority modes).head?

/-! ### Swapchain extent (renderer.rs lines 777-795) -/

structure Extent2D where
  width : Nat
  height : Nat
deriving DecidableEq

/-- The `u32::MAX` sentinel used by the fixed-extent check. -/
def U32_MAX : Nat := 4294967295

/-- Model of Rust's `Ord::clamp`: `none` models its panic when `lo > hi`. -/
def rustClamp (x lo hi : Nat) : Option Nat :=
  if lo ≤ hi then some (if x < lo then lo else if x > hi then hi else x) else none

/-- The fields of `vk::SurfaceCapabilitiesKHR` the renderer reads. -/
structure SurfaceCapabilitiesKHR where
  currentExtent : Extent2D
  minImageExtent : Extent2D
  maxImageExtent : Extent2D
  minImageCount : Nat
  maxImageCount : Nat
deriving DecidableEq

/-- Embedding of `choose_swapchain_extent` (renderer.rs lines 777-795). -/
def choose_swapchain_extent (winWidth winHeight : Nat)
    (caps : SurfaceCapabilitiesKHR) : Option Extent2D :=
  if caps.currentExtent.width ≠ U32_MAX then
    some caps.currentExtent
  else
    match rustClamp winWidth caps.minImageExtent.width caps.maxImageExtent.width,
          rustClamp winHeight caps.minImageExtent.height caps.maxImageExtent.height with
    | some w, some h => some ⟨w, h⟩
    | _, _ => none

/-- Sample capabilities with no fixed extent (width sentinel) and clamp
bounds [100, 800] in both dimensions. -/
def sampleCaps : SurfaceCapabilitiesKHR :=
  ⟨⟨U32_MAX, 600⟩, ⟨100, 100⟩, ⟨800, 800⟩, 2, 4⟩

/-! ### Surface-format selection (renderer.rs lines 747-765) -/

/-- Vulkan image formats; `otherFormat` stands for every remaining value. -/
inductive VkFormat
  | b8g8r8a8Unorm
  | r8g8b8a8Unorm
  | b8g8r8a8Srgb
  | otherFormat
deriving DecidableEq

/-- Vulkan color spaces; `otherColorSpace` stands for every remaining value. -/
inductive ColorSpace
  | srgbNonlinear
  | otherColorSpace
deriving DecidableEq

structure SurfaceFormatKHR where
  format : VkFormat
  colorSpace : ColorSpace
deriving DecidableEq

/-- The preferred pair tested inside the loop of `choose_swapchain_format`:
8-bit-per-channel BGRA (`B8G8R8A8_UNORM`) with `SRGB_NONLINEAR`. -/
def isPreferredFormat (f : SurfaceFormatKHR) : Prop :=
  f.format = VkFormat.b8g8r8a8Unorm ∧ f.colorSpace = ColorSpace.srgbNonlinear

instance (f : SurfaceFormatKHR) : Decidable (isPreferredFormat f) := by
  unfold isPreferredFormat
  infer_instance

/-- The `for format in &formats` loop of `choose_swapchain_format`:
return the first format matching the preferred pair. -/
def formatLoop : List SurfaceFormatKHR → Option SurfaceFormatKHR
  | [] => none
  | f :: fs => if isPreferredFormat f then some f else formatLoop fs

/-- Embedding of `choose_swapchain_format` (renderer.rs lines 747-765):
first preferred entry if any, else `formats[0]` (`none` models the index
panic on an empty list). -/
def choose_swapchain_format (formats : List SurfaceFormatKHR) : Option SurfaceFormatKHR :=
  match formatLoop formats with
  | some f => some f
  | none => formats.head?

/-- Sample surface-format list whose second entry is the preferred pair. -/
def sampleFormats : List SurfaceFormatKHR :=
  [⟨.r8g8b8a8Unorm, .srgbNonlinear⟩, ⟨.b8g8r8a8Unorm, .srgbNonlinear⟩]

/-! ### Shader bytecode packing (renderer.rs lines 1348-1371) -/

/-- Model of `u32::from_ne_bytes` on the engine's little-endian native
targets: byte 0 is least significant. -/
def u32FromNeBytes (b0 b1 b2 b3 : Nat) : Nat :=
  b0 + 256 * b1 + 65536 * b2 + 16777216 * b3

/-- The `chunks_exact(4)` + `from_ne_bytes` mapping of `pack_to_u32s`. -/
def packWords : List Nat → List Nat
  | b0 :: b1 :: b2 :: b3 :: rest => u32FromNeBytes b0 b1 b2 b3 :: packWords rest
  | _ => []

/-- Embedding of `pack_to_u32s` (renderer.rs lines 1361-1371): the `assert!`
on `bytes.len() % 4 == 0` is modelled by `none`. -/
def pack_to_u32s (bytes : List Nat) : Option (List Nat) :=
  if bytes.length % 4 = 0 then some (packWords bytes) else none

/-- The data handed to the driver by `create_shader_module` (renderer.rs
lines 1348-1359): original byte length plus the packed words.  `none` means
the packing assertion fired before any device object was touched. -/
structure ShaderModuleCreateInfo where
  codeSize : Nat
  code : List Nat
deriving DecidableEq

/-- Embedding of `create_shader_module`: packing runs first; on failure no
create-info ever reaches the driver. -/
def create_shader_module (bytes : List Nat) : Option ShaderModuleCreateInfo :=
  match pack_to_u32s bytes with
  | some ws => some ⟨bytes.length, ws⟩
  | none => none

/-! ### Memory-type lookup (renderer.rs lines 1481-1499) -/

/-- One entry of the device memory-type table; `propertyFlags` is the
`vk::MemoryPropertyFlags` bitmask. -/
structure MemoryType where
  propertyFlags : Nat
deriving DecidableEq

/-- The `for (i, memory_type) in ... enumerate()` loop of `find_memory_type`:
skip index `i` when bit `i` of `reqType` is clear (`req_type & (1 << i) == 0`)
or the entry's flags do not contain `reqProps`; otherwise return `some i`. -/
def fmtLoop (reqType reqProps : Nat) : Nat → List MemoryType → Option Nat
  | _, [] => none
  | i, mt :: rest =>
    if reqType &&& (1 <<< i) = 0 then fmtLoop reqType reqProps (i + 1) rest
    else if ¬ (mt.propertyFlags &&& reqProps = reqProps) then
      fmtLoop reqType reqProps (i + 1) rest
    else some i

/-- Embedding of `find_memory_type` (renderer.rs lines 1481-1499). -/
def find_memory_type (reqType reqProps : Nat) (memTypes : List MemoryType) : Option Nat :=
  fmtLoop reqType reqProps 0 memTypes

/-- Acceptability of index `i` as the claim states it: bit `i` of the
requirements mask is set and memory type `i` contains the required flags. -/
def memTypeOk (reqType reqProps : Nat) (memTypes : List MemoryType) (i : Nat) : Prop :=
  Nat.testBit reqType i = true ∧
  (memTypes.getD i ⟨0⟩).propertyFlags &&& reqProps = reqProps

instance (reqType reqProps : Nat) (memTypes : List MemoryType) (i : Nat) :
    Decidable (memTypeOk reqType reqProps memTypes i) := by
  unfold memTypeOk
  infer_instance

/-! ### The renderer's mutable per-frame state (renderer.rs lines 43-72,
119-246, 314-409)

The state machine models the fields of `Renderer` that the claims speak
about.  `fenceWaitCounts` is a ghost counter: entry `i` counts how many times
`begin_frame` has waited on slot `i`'s `is_rendering` fence.
`uniformBuffersMappings` holds the current contents of the persistently
mapped per-frame uniform buffers (`none` = never written since creation).
-/

def FRAMES_IN_FLIGHT : Nat := 2

/-- Mirror of the `UniformBufferObject` struct (renderer.rs lines 89-94),
with the matrix type abstract. -/
structure UniformBufferObject (M : Type) where
  model : M
  view : M
  proj : M
deriving DecidableEq

structure RendererState (M : Type) where
  currentFrame : Nat
  fenceWaitCounts : List Nat
  uniformBuffersMappings : List (Option (UniformBufferObject M))
  uniformBufferObject : UniformBufferObject M
  crosshairProj : M
  swapchainImages : List Nat
  swapchainImageViews : List Nat
  framebuffers : List Nat
deriving DecidableEq

/-- Handle abstraction of `create_image_view` (renderer.rs lines 1028-1061):
the view is identified by the image it wraps. -/
def create_image_view (image : Nat) : Nat := image

/-- Embedding of `create_image_views` (renderer.rs lines 1009-1026): one view
per swapchain image. -/
def create_image_views (images : List Nat) : List Nat :=
  images.map create_image_view

/-- Embedding of `create_framebuffers` (renderer.rs lines 1373-1400): the
loop pushes exactly one framebuffer per image view (the handle is identified
by its attachment). -/
def create_framebuffers : List Nat → List Nat
  | [] => []
  | v :: vs => v :: create_framebuffers vs

/-- The state produced by `Renderer::new` (renderer.rs lines 119-246):
`current_frame` starts at 0, every fence has been waited zero times, the
uniform mappings are still unwritten, the in-memory UBO is all-identity
(`identityM` models `Mat4::IDENTITY`), and views/framebuffers are built from
the swapchain images. -/
def rendererNew {M : Type} (identityM : M) (images : List Nat) : RendererState M :=
  let views := create_image_views images
  { currentFrame := 0
    fenceWaitCounts := List.replicate FRAMES_IN_FLIGHT 0
    uniformBuffersMappings := List.replicate FRAMES_IN_FLIGHT none
    uniformBufferObject := ⟨identityM, identityM, identityM⟩
    crosshairProj := identityM
    swapchainImages := images
    swapchainImageViews := views
    framebuffers := create_framebuffers views }

/-- Embedding of `begin_frame` (renderer.rs lines 323-348): it waits on slot
`current_frame`'s fence (counted by the ghost counter), acquires an image and
resets the fence; it does not change `current_frame`. -/
def begin_frame {M : Type} (s : RendererState M) : RendererState M :=
  let counts :=
    s.fenceWaitCounts.set s.currentFrame (s.fenceWaitCounts.getD s.currentFrame 0 + 1)
  { s with fenceWaitCounts := counts }

/-- Embedding of `end_frame` (renderer.rs lines 350-391): submit and present
touch no modelled field; the slot counter rotates modulo `FRAMES_IN_FLIGHT`. -/
def end_frame {M : Type} (s : RendererState M) : RendererState M :=
  { s with currentFrame := (s.currentFrame + 1) % FRAMES_IN_FLIGHT }

/-- Embedding of `present` (renderer.rs lines 314-321): `begin_frame`, then
command recording (which touches no modelled field), then `end_frame`. -/
def present {M : Type} (s : RendererState M) : RendererState M :=
  end_frame (begin_frame s)

/-- Embedding of `update_ubo` (renderer.rs lines 401-409): overwrite the view
and projection matrices of the in-memory UBO from the camera, then copy the
whole struct into the mapping of slot `current_frame`. -/
def update_ubo {M : Type} (view proj : M) (s : RendererState M) : RendererState M :=
  let ubo : UniformBufferObject M :=
    { s.uniformBufferObject with view := view, proj := proj }
  let mappings := s.uniformBuffersMappings.set s.currentFrame (some ubo)
  { s with uniformBufferObject := ubo, uniformBuffersMappings := mappings }

/-- Embedding of `update_ui_push_consts` (renderer.rs lines 397-399). -/
def update_ui_push_consts {M : Type} (proj : M) (s : RendererState M) : RendererState M :=
  { s with crosshairProj := proj }

/-- The renderer's public per-frame operations. `updateOp` models
`Renderer::update`, which only stores the current time (not modelled). -/
inductive Op (M : Type)
  | presentOp
  | updateUboOp (view proj : M)
  | updateUiOp (proj : M)
  | updateOp

def step {M : Type} : Op M → RendererState M → RendererState M
  | .presentOp, s => present s
  | .updateUboOp v p, s => update_ubo v p s
  | .updateUiOp p, s => update_ui_push_consts p s
  | .updateOp, s => s

/-- Run a sequence of renderer operations. -/
def run {M : Type} (ops : List (Op M)) (s : RendererState M) : RendererState M :=
  ops.foldl (fun st op => step op st) s

/-- Reachability invariant of the renderer state (with `identityM` the value
of `Mat4::IDENTITY`). -/
def RendererInv {M : Type} (identityM : M) (s : RendererState M) : Prop :=
  s.currentFrame < FRAMES_IN_FLIGHT ∧
  s.fenceWaitCounts.length = FRAMES_IN_FLIGHT ∧
  s.uniformBuffersMappings.length = FRAMES_IN_FLIGHT ∧
  s.uniformBufferObject.model = identityM ∧
  (∀ u ∈ s.uniformBuffersMappings, ∀ ubo, u = some ubo → ubo.model = identityM) ∧
  s.swapchainImages.length = s.swapchainImageViews.length ∧
  s.swapchainImageViews.length = s.framebuffers.length

/-! ## Part 2: theorems -/

/-! ### Stable-sort lemmas -/

theorem head?_ordInsert {α : Type} (key : α → Nat) (a : α) (l : List α) :
    (ordInsert key a l).head? =
      some (match l with
            | [] => a
            | b :: _ => if key a ≤ key b then a else b) := by
  cases l with
  | nil => rfl
  | cons b bs =>
    simp only [ordInsert]
    split <;> simp

theorem head?_sortByKey {α : Type} (key : α → Nat) (l : List α) :
    (sortByKey key l).head? = firstMinBy key l := by
  induction l with
  | nil => rfl
  | cons a as ih =>
    simp only [sortByKey, firstMinBy, head?_ordInsert]
    cases h : sortByKey key as with
    | nil =>
      have : firstMinBy key as = none := by rw [← ih, h]; rfl
      simp [this]
    | cons b bs =>
      have : firstMinBy key as = some b := by rw [← ih, h]; rfl
      simp only [this]
      split <;> rfl

theorem firstMinBy_mem {α : Type} (key : α → Nat) :
    ∀ (l : List α) (m : α), firstMinBy key l = some m → m ∈ l := by
  intro l
  induction l with
  | nil => intro m h; simp [firstMinBy] at h
  | cons a as ih =>
    intro m h
    simp only [firstMinBy] at h
    cases hm : firstMinBy key as with
    | none => rw [hm] at h; simp at h; simp [h]
    | some b =>
      rw [hm] at h
      simp only [] at h
      by_cases hk : key a ≤ key b
      · simp [hk] at h; simp [h]
      · simp [hk] at h
        right
        exact h ▸ ih b hm

theorem firstMinBy_eq_none {α : Type} (key : α → Nat) :
    ∀ l : List α, firstMinBy key l = none ↔ l = [] := by
  intro l
  cases l with
  | nil => simp [firstMinBy]
  | cons a as =>
    simp only [firstMinBy]
    constructor
    · intro h
      cases hm : firstMinBy key as with
      | none => rw [hm] at h; simp at h
      | some b => rw [hm] at h; simp only [] at h; split at h <;> simp at h
    · intro h; simp at h

theorem firstMinBy_min {α : Type} (key : α → Nat) :
    ∀ (l : List α) (m : α), firstMinBy key l = some m →
      ∀ x ∈ l, key m ≤ key x := by
  intro l
  induction l with
  | nil => intro m h; simp [firstMinBy] at h
  | cons a as ih =>
    intro m h x hx
    simp only [firstMinBy] at h
    cases hm : firstMinBy key as with
    | none =>
      rw [hm] at h
      have ham : a = m := Option.some.inj h
      have hnil : as = [] := (firstMinBy_eq_none key as).mp hm
      subst hnil
      have hxa : x = a := by simpa using hx
      rw [hxa, ← ham]
    | some b =>
      rw [hm] at h
      simp only [] at h
      by_cases hk : key a ≤ key b
      · rw [if_pos hk] at h
        have ham : a = m := Option.some.inj h
        rcases List.mem_cons.mp hx with rfl | hx'
        · rw [← ham]
        · exact Nat.le_trans (ham ▸ hk) (ih b hm x hx')
      · rw [if_neg hk] at h
        have hbm : b = m := Option.some.inj h
        rcases List.mem_cons.mp hx with rfl | hx'
        · exact Nat.le_of_lt (hbm ▸ Nat.lt_of_not_le hk)
        · exact hbm ▸ ih b hm x hx'

/-- Positional characterization of `firstMinBy`: it returns the element at the
first index attaining the minimal key. `d` is an arbitrary default for `getD`. -/
theorem firstMinBy_first_min {α : Type} (key : α → Nat) (d : α) :
    ∀ l : List α, l ≠ [] →
      ∃ i, i < l.length ∧ firstMinBy key l = some (l.getD i d) ∧
        (∀ j, j < l.length → key (l.getD i d) ≤ key (l.getD j d)) ∧
        (∀ j, j < i → key (l.getD j d) > key (l.getD i d)) := by
  intro l
  induction l with
  | nil => intro h; exact absurd rfl h
  | cons a as ih =>
    intro _
    cases hm : firstMinBy key as with
    | none =>
      have : as = [] := (firstMinBy_eq_none key as).mp hm
      subst this
      refine ⟨0, by simp, by simp [firstMinBy], ?_, ?_⟩
      · intro j hj
        have hj0 : j = 0 := by simpa [Nat.lt_one_iff] using hj
        subst hj0
        exact Nat.le_refl _
      · intro j hj; omega
    | some m =>
      have hne : as ≠ [] := by
        intro h; subst h; simp [firstMinBy] at hm
      obtain ⟨i, hi, heq, hmin, hfirst⟩ := ih hne
      have hmi : m = as.getD i d := by
        rw [hm] at heq; exact Option.some_injective _ heq
      by_cases hk : key a ≤ key m
      · refine ⟨0, by simp, ?_, ?_, ?_⟩
        · simp [firstMinBy, hm, hk]
        · intro j hj
          cases j with
          | zero => simp
          | succ j' =>
            simp only [List.getD_cons_succ, List.getD_cons_zero]
            exact Nat.le_trans (hmi ▸ hk) (hmin j' (by simpa using hj))
        · intro j hj; omega
      · refine ⟨i + 1, by simpa using hi, ?_, ?_, ?_⟩
        · show (match firstMinBy key as with
                | none => some a
                | some m => if key a ≤ key m then some a else some m) =
              some ((a :: as).getD (i + 1) d)
          rw [hm]
          simp only [List.getD_cons_succ]
          rw [if_neg hk]
          exact congrArg some hmi
        · intro j hj
          cases j with
          | zero =>
            simp only [List.getD_cons_succ, List.getD_cons_zero]
            exact Nat.le_of_lt (hmi ▸ Nat.lt_of_not_le hk)
          | succ j' =>
            simp only [List.getD_cons_succ]
            exact hmin j' (by simpa using hj)
        · intro j hj
          cases j with
          | zero =>
            simp only [List.getD_cons_succ, List.getD_cons_zero]
            exact hmi ▸ Nat.lt_of_not_le hk
          | succ j' =>
            simp only [List.getD_cons_succ]
            exact hfirst j' (by omega)

/-! ### Device-selection lemmas -/

theorem gqfiLoop_graphics_isSome (fs : List QueueFamily) :
    ∀ (i : Nat) (acc : QueueFamilyIndices),
      (gqfiLoop i acc fs).graphics.isSome =
        (acc.graphics.isSome || fs.any (·.graphics)) := by
  induction fs with
  | nil => intro i acc; simp [gqfiLoop]
  | cons f fs ih =>
    intro i acc
    simp only [gqfiLoop, ih, List.any_cons]
    cases hf : f.graphics <;> simp [gqfiStep, hf, Bool.or_assoc]

theorem gqfiLoop_present_isSome (fs : List QueueFamily) :
    ∀ (i : Nat) (acc : QueueFamilyIndices),
      (gqfiLoop i acc fs).present.isSome =
        (acc.present.isSome || fs.any (·.present)) := by
  induction fs with
  | nil => intro i acc; simp [gqfiLoop]
  | cons f fs ih =>
    intro i acc
    simp only [gqfiLoop, ih, List.any_cons]
    cases hf : f.present <;> simp [gqfiStep, hf, Bool.or_assoc]

/-- Every candidate surviving `gather_phys_device_infos` passes the filter. -/
theorem mem_gather_filter (devices : List PhysDevice) :
    ∀ info ∈ gather_phys_device_infos devices,
      supports_required_extensions info.device.extensions = true ∧
      (get_queue_family_indices info.device.queueFamilies).graphics.isSome = true ∧
      (get_queue_family_indices info.device.queueFamilies).present.isSome = true := by
  induction devices with
  | nil => intro info h; simp [gather_phys_device_infos] at h
  | cons d ds ih =>
    intro info h
    simp only [gather_phys_device_infos] at h
    split at h
    · rename_i hcond
      rcases List.mem_cons.mp h with rfl | h'
      · simp only [Bool.and_eq_true] at hcond
        exact ⟨hcond.2, hcond.1.1, hcond.1.2⟩
      · exact ih info h'
    · exact ih info h

theorem gather_empty_iff_none (devices : List PhysDevice) :
    pick_phys_device devices = none ↔ gather_phys_device_infos devices = [] := by
  unfold pick_phys_device
  rw [head?_sortByKey]
  exact firstMinBy_eq_none _ _

theorem gqfi_graphics_exists (fams : List QueueFamily) :
    (get_queue_family_indices fams).graphics.isSome = true →
    ∃ f ∈ fams, f.graphics = true := by
  intro h
  rw [get_queue_family_indices, gqfiLoop_graphics_isSome] at h
  simpa using h

theorem gqfi_present_exists (fams : List QueueFamily) :
    (get_queue_family_indices fams).present.isSome = true →
    ∃ f ∈ fams, f.present = true := by
  intro h
  rw [get_queue_family_indices, gqfiLoop_present_isSome] at h
  simpa using h

/-- C2: physical device selection never returns a device missing a required
extension, a graphics-capable queue family, or a present-capable queue
family; and it fails fatally (here: `none`, modelling the panic) exactly when
no enumerated device passes the filter. -/
theorem pick_phys_device_filtered (devices : List PhysDevice) :
    (∀ info, pick_phys_device devices = some info →
        supports_required_extensions info.device.extensions = true ∧
        (∃ f ∈ info.device.queueFamilies, f.graphics = true) ∧
        (∃ f ∈ info.device.queueFamilies, f.present = true)) ∧
    (pick_phys_device devices = none ↔ gather_phys_device_infos devices = []) := by
  refine ⟨?_, gather_empty_iff_none devices⟩
  intro info h
  have hmem : info ∈ gather_phys_device_infos devices := by
    unfold pick_phys_device at h
    rw [head?_sortByKey] at h
    exact firstMinBy_mem _ _ _ h
  obtain ⟨hext, hg, hp⟩ := mem_gather_filter devices info hmem
  exact ⟨hext, gqfi_graphics_exists _ hg, gqfi_present_exists _ hp⟩

/-- Witness for C2 at a concrete one-device enumeration. -/
theorem pick_phys_device_filtered_witness :
    supports_required_extensions (sampleDevice .discreteGpu).extensions = true ∧
    (∃ f ∈ (sampleDevice .discreteGpu).queueFamilies, f.graphics = true) ∧
    (∃ f ∈ (sampleDevice .discreteGpu).queueFamilies, f.present = true) :=
  (pick_phys_device_filtered [sampleDevice .discreteGpu]).1
    ⟨sampleDevice .discreteGpu, sampleQfi⟩ (by decide)

/-- C3: among surviving candidates the selection takes the head of a stable
sort by device-type priority, i.e. the first-enumerated candidate of minimal
priority (ties resolved toward the earlier-enumerated one); and on the
enumeration [integrated, discrete, virtual] (all passing the filter) the
discrete device is selected. -/
theorem pick_phys_device_ranking (infos : List PhysDeviceInfo) (hne : infos ≠ []) :
    ((sortByKey infoPriority infos).head? = firstMinBy infoPriority infos) ∧
    (∃ i, i < infos.length ∧
      (sortByKey infoPriority infos).head? = some (infos.getD i defaultInfo) ∧
      (∀ j, j < infos.length →
        infoPriority (infos.getD i defaultInfo) ≤ infoPriority (infos.getD j defaultInfo)) ∧
      (∀ j, j < i →
        infoPriority (infos.getD j defaultInfo) > infoPriority (infos.getD i defaultInfo))) ∧
    pick_phys_device
        [sampleDevice .integratedGpu, sampleDevice .discreteGpu, sampleDevice .virtualGpu] =
      some ⟨sampleDevice .discreteGpu, sampleQfi⟩ := by
  refine ⟨head?_sortByKey _ _, ?_, by decide⟩
  obtain ⟨i, hi, heq, hmin, hfirst⟩ := firstMinBy_first_min infoPriority defaultInfo infos hne
  refine ⟨i, hi, ?_, hmin, hfirst⟩
  rw [head?_sortByKey]
  exact heq

/-- Witness for C3 at two equal-priority discrete candidates. -/
theorem pick_phys_device_ranking_witness :
    ∃ i, i < sampleTieList.length ∧
      (sortByKey infoPriority sampleTieList).head? =
        some (sampleTieList.getD i defaultInfo) ∧
      (∀ j, j < sampleTieList.length →
        infoPriority (sampleTieList.getD i defaultInfo) ≤
          infoPriority (sampleTieList.getD j defaultInfo)) ∧
      (∀ j, j < i →
        infoPriority (sampleTieList.getD j defaultInfo) >
          infoPriority (sampleTieList.getD i defaultInfo)) :=
  (pick_phys_device_ranking sampleTieList (by decide)).2.1

/-- C4: present-mode selection returns a mode of best (lowest) priority under
immediate > relaxed FIFO > mailbox > other, and whenever the most-preferred
mode (immediate) is available it is returned, regardless of list order. -/
theorem choose_present_mode_best (modes : List PresentMode)
    (h : PresentMode.immediate ∈ modes) :
    choose_swapchain_present_mode modes = some PresentMode.immediate ∧
    (∀ (ms : List PresentMode) (m : PresentMode),
        choose_swapchain_present_mode ms = some m →
        ∀ x ∈ ms, present_mode_to_priority m ≤ present_mode_to_priority x) := by
  constructor
  · unfold choose_swapchain_present_mode
    rw [head?_sortByKey]
    have hne : modes ≠ [] := by intro hn; subst hn; simp at h
    obtain ⟨m, hm⟩ : ∃ m, firstMinBy present_mode_to_priority modes = some m := by
      cases hfm : firstMinBy present_mode_to_priority modes with
      | none => exact absurd ((firstMinBy_eq_none _ _).mp hfm) hne
      | some m => exact ⟨m, rfl⟩
    have hmin : present_mode_to_priority m ≤ present_mode_to_priority .immediate :=
      firstMinBy_min _ _ _ hm .immediate h
    have hmimm : m = .immediate := by
      cases m <;> first
        | rfl
        | (exfalso; simp [present_mode_to_priority] at hmin)
    rw [hm, hmimm]
  · intro ms m hm x hx
    unfold choose_swapchain_present_mode at hm
    rw [head?_sortByKey] at hm
    exact firstMinBy_min _ _ _ hm x hx

/-- Witness for C4 on a shuffled concrete mode list containing immediate. -/
theorem choose_present_mode_best_witness :
    choose_swapchain_present_mode
        [PresentMode.fifo, PresentMode.mailbox, PresentMode.immediate] =
      some PresentMode.immediate :=
  (choose_present_mode_best
    [PresentMode.fifo, PresentMode.mailbox, PresentMode.immediate] (by decide)).1

/-! ### Swapchain extent -/

theorem rustClamp_eq_max_min (x lo hi : Nat) (h : lo ≤ hi) :
    rustClamp x lo hi = some (max lo (min x hi)) := by
  unfold rustClamp
  rw [if_pos h]
  congr 1
  by_cases h1 : x < lo
  · rw [if_pos h1, Nat.min_eq_left (by omega), Nat.max_eq_left (by omega)]
  · rw [if_neg h1]
    by_cases h2 : x > hi
    · rw [if_pos h2, Nat.min_eq_right (by omega), Nat.max_eq_right h]
    · rw [if_neg h2, Nat.min_eq_left (by omega), Nat.max_eq_right (by omega)]

/-- C5: when the surface reports a fixed current extent (width not equal to
the `u32::MAX` sentinel) it is returned unchanged; otherwise each window
dimension is clamped into [min_image_extent, max_image_extent], so an
oversized window dimension is clamped down to the maximum and an undersized
one up to the minimum. -/
theorem choose_swapchain_extent_spec (winW winH : Nat) (caps : SurfaceCapabilitiesKHR) :
    (caps.currentExtent.width ≠ U32_MAX →
      choose_swapchain_extent winW winH caps = some caps.currentExtent) ∧
    (caps.currentExtent.width = U32_MAX →
     caps.minImageExtent.width ≤ caps.maxImageExtent.width →
     caps.minImageExtent.height ≤ caps.maxImageExtent.height →
      choose_swapchain_extent winW winH caps =
        some ⟨max caps.minImageExtent.width (min winW caps.maxImageExtent.width),
              max caps.minImageExtent.height (min winH caps.maxImageExtent.height)⟩ ∧
      (winW > caps.maxImageExtent.width →
        ∃ e, choose_swapchain_extent winW winH caps = some e ∧
          e.width = caps.maxImageExtent.width) ∧
      (winW < caps.minImageExtent.width →
        ∃ e, choose_swapchain_extent winW winH caps = some e ∧
          e.width = caps.minImageExtent.width) ∧
      (winH > caps.maxImageExtent.height →
        ∃ e, choose_swapchain_extent winW winH caps = some e ∧
          e.height = caps.maxImageExtent.height) ∧
      (winH < caps.minImageExtent.height →
        ∃ e, choose_swapchain_extent winW winH caps = some e ∧
          e.height = caps.minImageExtent.height)) := by
  constructor
  · intro h
    simp [choose_swapchain_extent, h]
  · intro h hW hH
    have hmain : choose_swapchain_extent winW winH caps =
        some ⟨max caps.minImageExtent.width (min winW caps.maxImageExtent.width),
              max caps.minImageExtent.height (min winH caps.maxImageExtent.height)⟩ := by
      unfold choose_swapchain_extent
      rw [if_neg (by simpa using h), rustClamp_eq_max_min _ _ _ hW,
        rustClamp_eq_max_min _ _ _ hH]
    refine ⟨hmain, ?_, ?_, ?_, ?_⟩
    · intro hgt
      refine ⟨_, hmain, ?_⟩
      show max caps.minImageExtent.width (min winW caps.maxImageExtent.width) =
        caps.maxImageExtent.width
      rw [Nat.min_eq_right (Nat.le_of_lt hgt), Nat.max_eq_right hW]
    · intro hlt
      refine ⟨_, hmain, ?_⟩
      show max caps.minImageExtent.width (min winW caps.maxImageExtent.width) =
        caps.minImageExtent.width
      rw [Nat.min_eq_left (by omega), Nat.max_eq_left (by omega)]
    · intro hgt
      refine ⟨_, hmain, ?_⟩
      show max caps.minImageExtent.height (min winH caps.maxImageExtent.height) =
        caps.maxImageExtent.height
      rw [Nat.min_eq_right (Nat.le_of_lt hgt), Nat.max_eq_right hH]
    · intro hlt
      refine ⟨_, hmain, ?_⟩
      show max caps.minImageExtent.height (min winH caps.maxImageExtent.height) =
        caps.minImageExtent.height
      rw [Nat.min_eq_left (by omega), Nat.max_eq_left (by omega)]

/-- Witness for C5: no fixed extent, window 1000x50 against bounds [100,800]
clamps down to 800 and up to 100. -/
theorem choose_swapchain_extent_spec_witness :
    choose_swapchain_extent 1000 50 sampleCaps =
      some ⟨max sampleCaps.minImageExtent.width (min 1000 sampleCaps.maxImageExtent.width),
            max sampleCaps.minImageExtent.height (min 50 sampleCaps.maxImageExtent.height)⟩ :=
  ((choose_swapchain_extent_spec 1000 50 sampleCaps).2
    (by decide) (by decide) (by decide)).1

/-! ### Surface format -/

theorem formatLoop_eq_find? (l : List SurfaceFormatKHR) :
    formatLoop l = l.find? (fun f => decide (isPreferredFormat f)) := by
  induction l with
  | nil => rfl
  | cons f fs ih =>
    by_cases hf : isPreferredFormat f
    · rw [List.find?_cons_of_pos _ (by simpa using hf)]
      simp [formatLoop, hf]
    · rw [List.find?_cons_of_neg _ (by simpa using hf)]
      simpa [formatLoop, hf] using ih

/-- C6: for a non-empty surface-format list, if an entry with 8-bit BGRA
format and nonlinear sRGB color space exists, the first such entry is
returned; otherwise the first entry of the list is returned. -/
theorem choose_swapchain_format_spec (l : List SurfaceFormatKHR) (hne : l ≠ []) :
    ((∃ f ∈ l, isPreferredFormat f) →
      choose_swapchain_format l = l.find? (fun f => decide (isPreferredFormat f)) ∧
      ∃ g, l.find? (fun f => decide (isPreferredFormat f)) = some g ∧
        isPreferredFormat g) ∧
    ((∀ f ∈ l, ¬ isPreferredFormat f) →
      ∃ a as, l = a :: as ∧ choose_swapchain_format l = some a) := by
  constructor
  · intro ⟨f, hfmem, hfpref⟩
    have hsome : (l.find? (fun f => decide (isPreferredFormat f))).isSome := by
      rw [List.find?_isSome]
      exact ⟨f, hfmem, by simpa using hfpref⟩
    obtain ⟨g, hg⟩ := Option.isSome_iff_exists.mp hsome
    have hgpref : isPreferredFormat g := by
      have := List.find?_some hg
      simpa using this
    refine ⟨?_, g, hg, hgpref⟩
    unfold choose_swapchain_format
    rw [formatLoop_eq_find?, hg]
  · intro hall
    have hnone : formatLoop l = none := by
      rw [formatLoop_eq_find?, List.find?_eq_none]
      intro x hx
      simpa using hall x hx
    cases l with
    | nil => exact absurd rfl hne
    | cons a as =>
      refine ⟨a, as, rfl, ?_⟩
      unfold choose_swapchain_format
      rw [hnone]
      rfl

/-- Witness for C6 on a list whose second entry is the preferred pair. -/
theorem choose_swapchain_format_spec_witness :
    choose_swapchain_format sampleFormats =
      sampleFormats.find? (fun f => decide (isPreferredFormat f)) ∧
    ∃ g, sampleFormats.find? (fun f => decide (isPreferredFormat f)) = some g ∧
      isPreferredFormat g :=
  (choose_swapchain_format_spec sampleFormats (by decide)).1 (by decide)

/-! ### Shader packing -/

theorem getD_cons_four (l : List Nat) (b0 b1 b2 b3 : Nat) (n : Nat) :
    (b0 :: b1 :: b2 :: b3 :: l).getD (n + 4) 0 = l.getD n 0 := by
  have h : n + 4 = (((n + 1) + 1) + 1) + 1 := by omega
  rw [h]
  simp [List.getD_cons_succ]

theorem packWords_length : ∀ bytes : List Nat, bytes.length % 4 = 0 →
    (packWords bytes).length = bytes.length / 4 := by
  intro bytes
  induction bytes using packWords.induct with
  | case1 b0 b1 b2 b3 rest ih =>
    intro h
    simp only [List.length_cons] at h
    have h' : rest.length % 4 = 0 := by omega
    simp only [packWords, List.length_cons]
    rw [ih h']
    omega
  | case2 x h1 =>
    intro h
    match x, h1 with
    | [], _ => simp [packWords]
    | [a], h1 => simp at h
    | [a, b], h1 => simp at h
    | [a, b, c], h1 => simp at h
    | a :: b :: c :: d :: r, h1 => exact absurd rfl (h1 a b c d r)

theorem packWords_getD : ∀ (bytes : List Nat) (i : Nat), bytes.length % 4 = 0 →
    i < bytes.length / 4 →
    (packWords bytes).getD i 0 =
      u32FromNeBytes (bytes.getD (4 * i) 0) (bytes.getD (4 * i + 1) 0)
        (bytes.getD (4 * i + 2) 0) (bytes.getD (4 * i + 3) 0) := by
  intro bytes
  induction bytes using packWords.induct with
  | case1 b0 b1 b2 b3 rest ih =>
    intro i h hi
    simp only [List.length_cons] at h hi
    have h' : rest.length % 4 = 0 := by omega
    cases i with
    | zero => simp [packWords]
    | succ i' =>
      have hi' : i' < rest.length / 4 := by omega
      have hL : (packWords (b0 :: b1 :: b2 :: b3 :: rest)).getD (i' + 1) 0 =
          (packWords rest).getD i' 0 := by
        simp [packWords, List.getD_cons_succ]
      have g0 : (b0 :: b1 :: b2 :: b3 :: rest).getD (4 * (i' + 1)) 0 =
          rest.getD (4 * i') 0 := by
        rw [(show 4 * (i' + 1) = 4 * i' + 4 by omega)]
        exact getD_cons_four rest b0 b1 b2 b3 (4 * i')
      have g1 : (b0 :: b1 :: b2 :: b3 :: rest).getD (4 * (i' + 1) + 1) 0 =
          rest.getD (4 * i' + 1) 0 := by
        rw [(show 4 * (i' + 1) + 1 = (4 * i' + 1) + 4 by omega)]
        exact getD_cons_four rest b0 b1 b2 b3 (4 * i' + 1)
      have g2 : (b0 :: b1 :: b2 :: b3 :: rest).getD (4 * (i' + 1) + 2) 0 =
          rest.getD (4 * i' + 2) 0 := by
        rw [(show 4 * (i' + 1) + 2 = (4 * i' + 2) + 4 by omega)]
        exact getD_cons_four rest b0 b1 b2 b3 (4 * i' + 2)
      have g3 : (b0 :: b1 :: b2 :: b3 :: rest).getD (4 * (i' + 1) + 3) 0 =
          rest.getD (4 * i' + 3) 0 := by
        rw [(show 4 * (i' + 1) + 3 = (4 * i' + 3) + 4 by omega)]
        exact getD_cons_four rest b0 b1 b2 b3 (4 * i' + 3)
      rw [hL, ih i' h' hi', g0, g1, g2, g3]
  | case2 x h1 =>
    intro i h hi
    match x, h1 with
    | [], _ => simp at hi
    | [a], h1 => simp at h
    | [a, b], h1 => simp at h
    | [a, b, c], h1 => simp at h
    | a :: b :: c :: d :: r, h1 => exact absurd rfl (h1 a b c d r)

/-- C7: shader bytecode of length divisible by 4 is reinterpreted as exactly
length/4 32-bit words, word i built from bytes 4i..4i+3 in native (little
endian) order; any other length fails the assertion (`none`) and no shader
module create-info is ever produced. -/
theorem pack_to_u32s_spec (bytes : List Nat) :
    (bytes.length % 4 = 0 →
      ∃ ws, pack_to_u32s bytes = some ws ∧ ws.length = bytes.length / 4 ∧
        ∀ i, i < ws.length →
          ws.getD i 0 =
            u32FromNeBytes (bytes.getD (4 * i) 0) (bytes.getD (4 * i + 1) 0)
              (bytes.getD (4 * i + 2) 0) (bytes.getD (4 * i + 3) 0)) ∧
    (bytes.length % 4 ≠ 0 →
      pack_to_u32s bytes = none ∧ create_shader_module bytes = none) := by
  constructor
  · intro h
    refine ⟨packWords bytes, by simp [pack_to_u32s, h], packWords_length bytes h, ?_⟩
    intro i hi
    exact packWords_getD bytes i h (by rwa [packWords_length bytes h] at hi)
  · intro h
    have h1 : pack_to_u32s bytes = none := by simp [pack_to_u32s, h]
    exact ⟨h1, by simp [create_shader_module, h1]⟩

/-- Witness for C7: a 13-byte blob is rejected fatally; an 8-byte blob packs
into two words. -/
theorem pack_to_u32s_spec_witness :
    (pack_to_u32s [1, 2, 3, 4, 5, 6, 7, 8, 9, 10, 11, 12, 13] = none ∧
     create_shader_module [1, 2, 3, 4, 5, 6, 7, 8, 9, 10, 11, 12, 13] = none) ∧
    (∃ ws, pack_to_u32s [1, 0, 0, 0, 2, 0, 0, 0] = some ws ∧
      ws.length = ([1, 0, 0, 0, 2, 0, 0, 0] : List Nat).length / 4 ∧
      ∀ i, i < ws.length →
        ws.getD i 0 =
          u32FromNeBytes (([1, 0, 0, 0, 2, 0, 0, 0] : List Nat).getD (4 * i) 0)
            (([1, 0, 0, 0, 2, 0, 0, 0] : List Nat).getD (4 * i + 1) 0)
            (([1, 0, 0, 0, 2, 0, 0, 0] : List Nat).getD (4 * i + 2) 0)
            (([1, 0, 0, 0, 2, 0, 0, 0] : List Nat).getD (4 * i + 3) 0)) :=
  ⟨(pack_to_u32s_spec [1, 2, 3, 4, 5, 6, 7, 8, 9, 10, 11, 12, 13]).2 (by decide),
   (pack_to_u32s_spec [1, 0, 0, 0, 2, 0, 0, 0]).1 (by decide)⟩

/-! ### Memory-type lookup -/

theorem and_shiftLeft_eq_zero_iff (r i : Nat) :
    (r &&& (1 <<< i) = 0) ↔ Nat.testBit r i = false := by
  rw [Nat.shiftLeft_eq, one_mul, Nat.and_two_pow]
  cases h : Nat.testBit r i with
  | false => simp
  | true => simp [Nat.pow_eq_zero]

theorem fmtLoop_some (r p : Nat) : ∀ (l : List MemoryType) (k i : Nat),
    fmtLoop r p k l = some i →
      k ≤ i ∧ i - k < l.length ∧
      (Nat.testBit r i = true ∧ (l.getD (i - k) ⟨0⟩).propertyFlags &&& p = p) ∧
      (∀ j, k ≤ j → j < i →
        ¬ (Nat.testBit r j = true ∧ (l.getD (j - k) ⟨0⟩).propertyFlags &&& p = p)) := by
  intro l
  induction l with
  | nil => intro k i h; simp [fmtLoop] at h
  | cons mt rest ih =>
    intro k i h
    simp only [fmtLoop] at h
    by_cases h1 : r &&& (1 <<< k) = 0
    · rw [if_pos h1] at h
      obtain ⟨hki, hlen, hok, hfirst⟩ := ih (k + 1) i h
      have hbit : Nat.testBit r k = false := (and_shiftLeft_eq_zero_iff r k).mp h1
      refine ⟨by omega, by simp only [List.length_cons]; omega, ?_, ?_⟩
      · rw [(show i - k = (i - (k + 1)) + 1 by omega), List.getD_cons_succ]
        exact hok
      · intro j hkj hji
        by_cases hjk : j = k
        · subst hjk
          intro hcon
          rw [hbit] at hcon
          exact absurd hcon.1 (by simp)
        · rw [(show j - k = (j - (k + 1)) + 1 by omega), List.getD_cons_succ]
          exact hfirst j (by omega) hji
    · rw [if_neg h1] at h
      by_cases h2 : mt.propertyFlags &&& p = p
      · rw [if_neg (not_not_intro h2)] at h
        have hik : k = i := Option.some.inj h
        subst hik
        refine ⟨Nat.le_refl k, by simp, ?_, ?_⟩
        · constructor
          · cases hb : Nat.testBit r k with
            | false => exact absurd ((and_shiftLeft_eq_zero_iff r k).mpr hb) h1
            | true => rfl
          · rw [Nat.sub_self]
            simpa using h2
        · intro j hkj hjk
          omega
      · rw [if_pos h2] at h
        obtain ⟨hki, hlen, hok, hfirst⟩ := ih (k + 1) i h
        refine ⟨by omega, by simp only [List.length_cons]; omega, ?_, ?_⟩
        · rw [(show i - k = (i - (k + 1)) + 1 by omega), List.getD_cons_succ]
          exact hok
        · intro j hkj hji
          by_cases hjk : j = k
          · subst hjk
            intro hcon
            rw [Nat.sub_self] at hcon
            exact h2 (by simpa using hcon.2)
          · rw [(show j - k = (j - (k + 1)) + 1 by omega), List.getD_cons_succ]
            exact hfirst j (by omega) hji

theorem fmtLoop_none (r p : Nat) : ∀ (l : List MemoryType) (k : Nat),
    fmtLoop r p k l = none ↔
      ∀ j, j < l.length →
        ¬ (Nat.testBit r (k + j) = true ∧ (l.getD j ⟨0⟩).propertyFlags &&& p = p) := by
  intro l
  induction l with
  | nil => intro k; simp [fmtLoop]
  | cons mt rest ih =>
    intro k
    simp only [fmtLoop]
    by_cases h1 : r &&& (1 <<< k) = 0
    · rw [if_pos h1, ih (k + 1)]
      have hbit : Nat.testBit r k = false := (and_shiftLeft_eq_zero_iff r k).mp h1
      constructor
      · intro hh j hj
        cases j with
        | zero =>
          intro hcon
          rw [Nat.add_zero, hbit] at hcon
          exact absurd hcon.1 (by simp)
        | succ j' =>
          rw [(show k + (j' + 1) = (k + 1) + j' by omega), List.getD_cons_succ]
          exact hh j' (by simpa using hj)
      · intro hh j hj
        have := hh (j + 1) (by simpa using hj)
        rw [(show k + (j + 1) = (k + 1) + j by omega), List.getD_cons_succ] at this
        exact this
    · rw [if_neg h1]
      have hbit : Nat.testBit r k = true := by
        cases hb : Nat.testBit r k with
        | false => exact absurd ((and_shiftLeft_eq_zero_iff r k).mpr hb) h1
        | true => rfl
      by_cases h2 : mt.propertyFlags &&& p = p
      · rw [if_neg (not_not_intro h2)]
        constructor
        · intro hh; exact absurd hh (by simp)
        · intro hh
          exfalso
          exact hh 0 (by simp) ⟨by simpa using hbit, by simpa using h2⟩
      · rw [if_pos h2, ih (k + 1)]
        constructor
        · intro hh j hj
          cases j with
          | zero =>
            intro hcon
            exact h2 (by simpa using hcon.2)
          | succ j' =>
            rw [(show k + (j' + 1) = (k + 1) + j' by omega), List.getD_cons_succ]
            exact hh j' (by simpa using hj)
        · intro hh j hj
          have := hh (j + 1) (by simpa using hj)
          rw [(show k + (j + 1) = (k + 1) + j by omega), List.getD_cons_succ] at this
          exact this

/-- C9: `find_memory_type` is a first-match linear scan: it returns `some i`
exactly for the smallest index `i` whose bit is set in the requirements mask
and whose property flags contain the required flags, and `none` exactly when
no index qualifies. -/
theorem find_memory_type_spec (reqType reqProps : Nat) (memTypes : List MemoryType) :
    (∀ i, find_memory_type reqType reqProps memTypes = some i →
        i < memTypes.length ∧ memTypeOk reqType reqProps memTypes i ∧
        ∀ j, j < i → ¬ memTypeOk reqType reqProps memTypes j) ∧
    (find_memory_type reqType reqProps memTypes = none ↔
        ∀ i, i < memTypes.length → ¬ memTypeOk reqType reqProps memTypes i) := by
  constructor
  · intro i h
    obtain ⟨hki, hlen, hok, hfirst⟩ := fmtLoop_some reqType reqProps memTypes 0 i h
    rw [Nat.sub_zero] at hlen hok
    refine ⟨hlen, hok, ?_⟩
    intro j hj hcon
    have := hfirst j (Nat.zero_le j) hj
    rw [Nat.sub_zero] at this
    exact this hcon
  · unfold find_memory_type
    rw [fmtLoop_none]
    constructor
    · intro hh i hi hcon
      exact hh i hi (by rw [Nat.zero_add]; exact hcon)
    · intro hh j hj
      rw [Nat.zero_add]
      exact hh j hj

/-- Witness for C9: mask 6 with required flag bit 1 over the table
[flags 3, flags 0, flags 7] selects index 2 (0 has its mask bit clear, 1
lacks the flag). -/
theorem find_memory_type_spec_witness :
    2 < ([⟨3⟩, ⟨0⟩, ⟨7⟩] : List MemoryType).length ∧
    memTypeOk 6 1 [⟨3⟩, ⟨0⟩, ⟨7⟩] 2 ∧
    ∀ j, j < 2 → ¬ memTypeOk 6 1 [⟨3⟩, ⟨0⟩, ⟨7⟩] j :=
  (find_memory_type_spec 6 1 [⟨3⟩, ⟨0⟩, ⟨7⟩]).1 2 (by decide)

/-! ### Renderer state machine -/

theorem create_framebuffers_length : ∀ l : List Nat,
    (create_framebuffers l).length = l.length := by
  intro l
  induction l with
  | nil => rfl
  | cons v vs ih => simp [create_framebuffers, ih]

theorem rendererInv_new {M : Type} (idM : M) (images : List Nat) :
    RendererInv idM (rendererNew idM images) := by
  refine ⟨by simp [rendererNew, FRAMES_IN_FLIGHT], by simp [rendererNew],
    by simp [rendererNew], rfl, ?_, ?_, ?_⟩
  · intro u hu ubo hubo
    have : u = none := by
      simpa using (List.eq_of_mem_replicate (by simpa [rendererNew] using hu))
    rw [this] at hubo
    exact absurd hubo (by simp)
  · simp [rendererNew, create_image_views]
  · simp [rendererNew, create_framebuffers_length]

theorem rendererInv_step {M : Type} (idM : M) (op : Op M) (s : RendererState M)
    (h : RendererInv idM s) : RendererInv idM (step op s) := by
  obtain ⟨hcf, hfl, hml, hmodel, hmaps, hiv, hvf⟩ := h
  cases op with
  | presentOp =>
    refine ⟨?_, ?_, hml, hmodel, hmaps, hiv, hvf⟩
    · show (s.currentFrame + 1) % FRAMES_IN_FLIGHT < FRAMES_IN_FLIGHT
      exact Nat.mod_lt _ (by decide)
    · show (s.fenceWaitCounts.set s.currentFrame
          (s.fenceWaitCounts.getD s.currentFrame 0 + 1)).length = FRAMES_IN_FLIGHT
      simpa using hfl
  | updateUboOp v p =>
    refine ⟨hcf, hfl, ?_, hmodel, ?_, hiv, hvf⟩
    · show (s.uniformBuffersMappings.set s.currentFrame _).length = FRAMES_IN_FLIGHT
      simpa using hml
    · intro u hu ubo hubo
      rcases List.mem_or_eq_of_mem_set hu with hmem | heq
      · exact hmaps u hmem ubo hubo
      · rw [heq] at hubo
        have : ({ s.uniformBufferObject with view := v, proj := p } :
            UniformBufferObject M) = ubo := Option.some.inj hubo
        rw [← this]
        exact hmodel
  | updateUiOp p => exact ⟨hcf, hfl, hml, hmodel, hmaps, hiv, hvf⟩
  | updateOp => exact ⟨hcf, hfl, hml, hmodel, hmaps, hiv, hvf⟩

theorem rendererInv_run {M : Type} (idM : M) (ops : List (Op M)) :
    ∀ s : RendererState M, RendererInv idM s → RendererInv idM (run ops s) := by
  induction ops with
  | nil => intro s h; exact h
  | cons op ops ih => intro s h; exact ih _ (rendererInv_step idM op s h)

/-- Over two consecutive `present` calls from any state with a valid slot
index and a two-entry fence table, every slot's fence-wait counter advances
by exactly one. -/
theorem present_present_fence_waits {M : Type} (s : RendererState M)
    (hcf : s.currentFrame < 2) (hfl : s.fenceWaitCounts.length = 2) :
    ∀ i, i < 2 →
      (present (present s)).fenceWaitCounts.getD i 0 =
        s.fenceWaitCounts.getD i 0 + 1 := by
  obtain ⟨a, b, hab⟩ := List.length_eq_two.mp hfl
  intro i hi
  have h01 : s.currentFrame = 0 ∨ s.currentFrame = 1 := by omega
  have hi01 : i = 0 ∨ i = 1 := by omega
  rcases h01 with h0 | h0 <;> rcases hi01 with rfl | rfl <;>
    simp [present, begin_frame, end_frame, FRAMES_IN_FLIGHT, hab, h0]

/-- C1: with N = FRAMES_IN_FLIGHT = 2 the frame counter starts at 0, only
`end_frame` advances it (as (current_frame + 1) mod N, the other operations
leave it unchanged), it stays in [0, N) under every operation sequence, and
over any two consecutive `present` calls from a reachable state each of the
two slots' fences is waited on exactly once. -/
theorem current_frame_cycles {M : Type} (idM : M) (images : List Nat)
    (ops : List (Op M)) :
    (rendererNew idM images).currentFrame = 0 ∧
    (∀ s : RendererState M,
      (end_frame s).currentFrame = (s.currentFrame + 1) % FRAMES_IN_FLIGHT) ∧
    (∀ s : RendererState M, (begin_frame s).currentFrame = s.currentFrame) ∧
    (∀ (s : RendererState M) (v p : M),
      (update_ubo v p s).currentFrame = s.currentFrame) ∧
    (∀ (s : RendererState M) (p : M),
      (update_ui_push_consts p s).currentFrame = s.currentFrame) ∧
    (run ops (rendererNew idM images)).currentFrame < FRAMES_IN_FLIGHT ∧
    (∀ i, i < FRAMES_IN_FLIGHT →
      (present (present (run ops (rendererNew idM images)))).fenceWaitCounts.getD i 0 =
        (run ops (rendererNew idM images)).fenceWaitCounts.getD i 0 + 1) := by
  have hinv := rendererInv_run idM ops _ (rendererInv_new idM images)
  refine ⟨rfl, fun s => rfl, fun s => rfl, fun s v p => rfl, fun s p => rfl,
    hinv.1, ?_⟩
  exact present_present_fence_waits _ hinv.1 hinv.2.1

/-- Witness for C1: after one present from the initial state, two further
presents bump slot 0's wait counter by exactly one. -/
theorem current_frame_cycles_witness :
    (present (present (run [Op.presentOp] (rendererNew (0 : Nat) [1])))).fenceWaitCounts.getD 0 0 =
      (run [Op.presentOp] (rendererNew (0 : Nat) [1])).fenceWaitCounts.getD 0 0 + 1 :=
  (current_frame_cycles 0 [1] [Op.presentOp]).2.2.2.2.2.2 0 (by decide)

/-- C8: after construction the number of swapchain images, image views and
framebuffers coincide, and every renderer operation preserves these counts
for the whole lifetime. -/
theorem swapchain_counts_equal {M : Type} (idM : M) (images : List Nat)
    (ops : List (Op M)) :
    (run ops (rendererNew idM images)).swapchainImages.length =
      (run ops (rendererNew idM images)).swapchainImageViews.length ∧
    (run ops (rendererNew idM images)).swapchainImageViews.length =
      (run ops (rendererNew idM images)).framebuffers.length := by
  have h := rendererInv_run idM ops _ (rendererInv_new idM images)
  exact ⟨h.2.2.2.2.2.1, h.2.2.2.2.2.2⟩

/-- C10: from any reachable state, `update_ubo` writes exactly the mapped
uniform buffer of slot `current_frame` (the whole struct, whose model part is
the unchanged in-memory model matrix), leaves every other slot's mapping
untouched, overwrites only the view and projection matrices of the in-memory
UBO, and the model matrix stays the identity for the renderer's lifetime
(both in the UBO and in every written mapping). -/
theorem update_ubo_slot_local {M : Type} (idM : M) (images : List Nat)
    (ops : List (Op M)) (v p : M) :
    ((update_ubo v p (run ops (rendererNew idM images))).uniformBuffersMappings.getD
        (run ops (rendererNew idM images)).currentFrame none =
      some ⟨(run ops (rendererNew idM images)).uniformBufferObject.model, v, p⟩) ∧
    (∀ j, j < FRAMES_IN_FLIGHT → j ≠ (run ops (rendererNew idM images)).currentFrame →
      (update_ubo v p (run ops (rendererNew idM images))).uniformBuffersMappings.getD j none =
        (run ops (rendererNew idM images)).uniformBuffersMappings.getD j none) ∧
    ((update_ubo v p (run ops (rendererNew idM images))).uniformBufferObject.model =
      (run ops (rendererNew idM images)).uniformBufferObject.model) ∧
    ((run ops (rendererNew idM images)).uniformBufferObject.model = idM) ∧
    (∀ u ∈ (run ops (rendererNew idM images)).uniformBuffersMappings,
      ∀ ubo, u = some ubo → ubo.model = idM) := by
  have hinv := rendererInv_run idM ops _ (rendererInv_new idM images)
  obtain ⟨hcf, hfl, hml, hmodel, hmaps, hiv, hvf⟩ := hinv
  obtain ⟨u0, u1, hab⟩ := List.length_eq_two.mp hml
  have h01 : (run ops (rendererNew idM images)).currentFrame = 0 ∨
      (run ops (rendererNew idM images)).currentFrame = 1 := by
    have : FRAMES_IN_FLIGHT = 2 := rfl
    omega
  refine ⟨?_, ?_, rfl, hmodel, hmaps⟩
  · rcases h01 with h0 | h0 <;> simp [update_ubo, hab, h0]
  · intro j hj hne
    have hj01 : j = 0 ∨ j = 1 := by
      have : FRAMES_IN_FLIGHT = 2 := rfl
      omega
    rcases h01 with h0 | h0 <;> rcases hj01 with rfl | rfl
    · exact absurd h0.symm hne
    · simp [update_ubo, hab, h0]
    · simp [update_ubo, hab, h0]
    · exact absurd h0.symm hne

/-- Witness for C10: in the freshly constructed renderer, updating the UBO
with view 5 and proj 7 writes slot 0's mapping and leaves slot 1 untouched. -/
theorem update_ubo_slot_local_witness :
    ((update_ubo 5 7 (run [] (rendererNew (0 : Nat) []))).uniformBuffersMappings.getD
        (run [] (rendererNew (0 : Nat) [])).currentFrame none =
      some ⟨(run [] (rendererNew (0 : Nat) [])).uniformBufferObject.model, 5, 7⟩) ∧
    ((update_ubo 5 7 (run [] (rendererNew (0 : Nat) []))).uniformBuffersMappings.getD 1 none =
      (run [] (rendererNew (0 : Nat) [])).uniformBuffersMappings.getD 1 none) :=
  ⟨(update_ubo_slot_local 0 [] [] 5 7).1,
   (update_ubo_slot_local 0 [] [] 5 7).2.1 1 (by decide) (by decide)⟩

end Slsh
